import Mathlib

/-!
Verification of the detection-and-risk-classification engine of the
Crypto-VS-code-extension repository.

The TypeScript sources are shallowly embedded: file text is a `List Char`,
machine numbers are `Nat`/`Int`, the external regular-expression engine and
the external tree-sitter parser are modelled by explicit match functions and
by the depth-first preorder list of node spans that the source's recursive
walk visits.  Every definition follows the corresponding source function.
-/

/-! ## Basic string machinery (models of the JS string primitives used) -/

/-- Model of JS `String.prototype.toLowerCase` character-wise (inputs are ASCII). -/
def lowerList (s : List Char) : List Char := s.map Char.toLower

/-- Lowercase a `String` (model of `name.toLowerCase()`). -/
def lowerStr (s : String) : String := String.mk (lowerList s.data)

/-- Test whether `pat` is an initial segment of `s`. -/
def leadingEq : List Char → List Char → Bool
  | [], _ => true
  | _ :: _, [] => false
  | a :: as, b :: bs => a == b && leadingEq as bs

/-- Model of JS `hay.includes(pat)`: `pat` occurs contiguously in `hay`. -/
def listIncludes (hay pat : List Char) : Bool :=
  (List.range (hay.length + 1)).any (fun i => leadingEq pat (hay.drop i))

/-- String wrapper for `listIncludes`. -/
def strIncludes (s pat : String) : Bool := listIncludes s.data pat.data

/-! ## Risk classifier (src/parser/risk-utils.ts, `assignRisk`, lines 21-72) -/

/-- The tri-state-plus-unknown quantum-safety flag
`boolean | 'partial' | 'unknown'` of the source. -/
inductive QSafe where
  | yes : QSafe
  | no : QSafe
  | part : QSafe
  | unk : QSafe
deriving DecidableEq

/-- The `SeverityLevel` of risk-utils.ts. -/
inductive Severity where
  | low : Severity
  | medium : Severity
  | high : Severity
deriving DecidableEq

/-- The `RiskProfile` of risk-utils.ts. -/
structure RiskProfile where
  severity : Severity
  score : Int
  explanation : String
deriving DecidableEq

/-- Embedding of `assignRisk` (risk-utils.ts lines 21-72), branch for branch.
The source's if/else chain assigns `baseScore` and `explanation` together;
here each variable's final value is rendered as its own conditional chain
over the same conditions. -/
def assignRisk (quantumSafe : QSafe) (type name : String) : RiskProfile :=
  let lower := lowerStr name
  let base : Int :=
    if strIncludes lower "md5" || strIncludes lower "sha1" ||
       strIncludes lower "des" || strIncludes lower "rc4" then 95
    else if strIncludes lower "rsa" || strIncludes lower "ecdsa" then 80
    else if strIncludes lower "aes" || strIncludes lower "sha256" ||
            strIncludes lower "sha512" then 50
    else if strIncludes lower "kyber" || strIncludes lower "dilithium" ||
            strIncludes lower "falcon" || strIncludes lower "sphincs" then 20
    else 50
  let explanation : String :=
    if strIncludes lower "md5" || strIncludes lower "sha1" ||
       strIncludes lower "des" || strIncludes lower "rc4" then
      "Uses cryptographically broken or obsolete algorithm."
    else if strIncludes lower "rsa" || strIncludes lower "ecdsa" then
      "Classical algorithm vulnerable to quantum attacks."
    else if strIncludes lower "aes" || strIncludes lower "sha256" ||
            strIncludes lower "sha512" then
      "Modern algorithm with partial quantum resistance."
    else if strIncludes lower "kyber" || strIncludes lower "dilithium" ||
            strIncludes lower "falcon" || strIncludes lower "sphincs" then
      "Post-quantum cryptographic algorithm (PQC)."
    else "Default base risk."
  let b1 : Int :=
    if quantumSafe = QSafe.no then base + 20
    else if quantumSafe = QSafe.part then base + 10
    else if quantumSafe = QSafe.yes then base - 10
    else base
  let t := lowerStr type
  let b2 : Int := if strIncludes t "cipher" || strIncludes t "encryption" then b1 + 5 else b1
  let b3 : Int := if strIncludes t "signature" || strIncludes t "keygen" then b2 + 10 else b2
  let b4 : Int := if strIncludes t "hash" then b3 - 5 else b3
  let clamped : Int := min 100 (max 0 b4)
  let severity : Severity :=
    if clamped ≥ 75 then Severity.high
    else if clamped ≥ 45 then Severity.medium
    else Severity.low
  { severity := severity, score := clamped, explanation := explanation }

/-! ### The claimed heuristic, written out independently from its
natural-language description (base tiers, additive adjustments, clamp,
severity thresholds), to be compared with the source embedding. -/

/-- Base score per the claimed four weakness tiers, first match wins. -/
def baseScoreSpec (name : String) : Int :=
  let lower := lowerStr name
  if ["md5", "sha1", "des", "rc4"].any (fun w => strIncludes lower w) then 95
  else if ["rsa", "ecdsa"].any (fun w => strIncludes lower w) then 80
  else if ["aes", "sha256", "sha512"].any (fun w => strIncludes lower w) then 50
  else if ["kyber", "dilithium", "falcon", "sphincs"].any (fun w => strIncludes lower w) then 20
  else 50

/-- Claimed quantum-safety adjustment. -/
def quantumAdjSpec : QSafe → Int
  | QSafe.no => 20
  | QSafe.part => 10
  | QSafe.yes => -10
  | QSafe.unk => 0

/-- Claimed primitive-type adjustment (the three keyword tests are additive). -/
def typeAdjSpec (type : String) : Int :=
  let t := lowerStr type
  (if strIncludes t "cipher" || strIncludes t "encryption" then (5 : Int) else 0)
    + (if strIncludes t "signature" || strIncludes t "keygen" then 10 else 0)
    + (if strIncludes t "hash" then -5 else 0)

/-- Clamp to [0, 100]. -/
def clampSpec (x : Int) : Int := min 100 (max 0 x)

/-- Claimed severity mapping of the clamped score. -/
def severitySpec (s : Int) : Severity :=
  if s ≥ 75 then Severity.high
  else if s ≥ 45 then Severity.medium
  else Severity.low

/-- The claimed heuristic end to end: severity and score only. -/
def assignRiskSpec (quantumSafe : QSafe) (type name : String) : Severity × Int :=
  let score := clampSpec (baseScoreSpec name + quantumAdjSpec quantumSafe + typeAdjSpec type)
  (severitySpec score, score)

/-- C1: `assignRisk` computes exactly the claimed heuristic (base tier by
name substrings, quantum-safety adjustment, type-keyword adjustments,
clamp to [0,100], severity thresholds 75/45), for every quantum-safety
value and all type and name strings; in particular
`assignRisk(false, "hash", "MD5")` scores 100 with severity high. -/
theorem assignRisk_matches_spec :
    (∀ (qs : QSafe) (type name : String),
      ((assignRisk qs type name).severity, (assignRisk qs type name).score)
        = assignRiskSpec qs type name)
    ∧ (assignRisk QSafe.no "hash" "MD5").score = 100
    ∧ (assignRisk QSafe.no "hash" "MD5").severity = Severity.high := by
  refine ⟨fun qs type name => ?_, by decide, by decide⟩
  simp only [assignRisk, assignRiskSpec, baseScoreSpec, quantumAdjSpec, typeAdjSpec,
    clampSpec, severitySpec, List.any_cons, List.any_nil, Bool.or_false, Bool.or_assoc]
  cases qs <;>
  cases h1 : (strIncludes (lowerStr name) "md5" || (strIncludes (lowerStr name) "sha1" ||
      (strIncludes (lowerStr name) "des" || strIncludes (lowerStr name) "rc4"))) <;>
  cases h2 : (strIncludes (lowerStr name) "rsa" || strIncludes (lowerStr name) "ecdsa") <;>
  cases h3 : (strIncludes (lowerStr name) "aes" || (strIncludes (lowerStr name) "sha256" ||
      strIncludes (lowerStr name) "sha512")) <;>
  cases h4 : (strIncludes (lowerStr name) "kyber" || (strIncludes (lowerStr name) "dilithium" ||
      (strIncludes (lowerStr name) "falcon" || strIncludes (lowerStr name) "sphincs"))) <;>
  cases h5 : (strIncludes (lowerStr type) "cipher" || strIncludes (lowerStr type) "encryption") <;>
  cases h6 : (strIncludes (lowerStr type) "signature" || strIncludes (lowerStr type) "keygen") <;>
  cases h7 : strIncludes (lowerStr type) "hash" <;>
  decide

/-! ## Position indexer (src/parser/regex-detector.ts, `offsetToLineNumbers`,
lines 159-179) -/

/-- Positions immediately following each `'\n'` of `s`, when `s` starts at
absolute position `i` (the collection loop of lines 163-165). -/
def newlinePositions : List Char → Nat → List Nat
  | [], _ => []
  | c :: cs, i =>
    if c = '\n' then (i + 1) :: newlinePositions cs (i + 1)
    else newlinePositions cs (i + 1)

/-- The line-start table: position 0 plus every position right after a newline. -/
def lineStarts (text : List Char) : List Nat := 0 :: newlinePositions text 0

/-- The source's binary-search loop (lines 168-173).  The source keeps
`lo, hi : Int` where `hi` may reach `-1`; here `hi1` stands for `hi + 1` so
the state stays in `Nat`, and `fuel` bounds the iteration count (the
interval `hi1 - lo` shrinks every step, so `arr.length` always suffices). -/
def bsearchGo (arr : List Nat) (off : Nat) : Nat → Nat → Nat → Nat
  | 0, lo, _ => lo
  | fuel + 1, lo, hi1 =>
    if lo < hi1 then
      let mid := (lo + hi1 - 1) / 2
      if arr.getD mid 0 ≤ off then bsearchGo arr off fuel (mid + 1) hi1
      else bsearchGo arr off fuel lo mid
    else lo

/-- Final value of `lo` for one offset (the loop enters with `lo = 0`,
`hi = arr.length - 1`, i.e. `hi1 = arr.length`). -/
def bsearchLine (arr : List Nat) (off : Nat) : Nat :=
  bsearchGo arr off arr.length 0 arr.length

/-- JS `Set.add`: keep first occurrence, append unseen values. -/
def insertDistinct (acc : List Nat) (x : Nat) : List Nat :=
  if x ∈ acc then acc else acc ++ [x]

/-- Model of `Array.from(new Set(lines))` of line 178. -/
def dedupKeepFirst (l : List Nat) : List Nat := l.foldl insertDistinct []

/-- Model of `Array.from(new Set(lines)).sort((a, b) => a - b)` of line 178. -/
def dedupSort (l : List Nat) : List Nat :=
  List.insertionSort (· ≤ ·) (dedupKeepFirst l)

/-- Embedding of `offsetToLineNumbers` (regex-detector.ts lines 159-179);
`lineIdx = Math.max(0, lo - 1)` is the truncated subtraction `lo - 1`. -/
def offsetToLineNumbers (text : List Char) (offsets : List Nat) : List Nat :=
  let ls := lineStarts text
  let lines := offsets.map (fun off => (bsearchLine ls off - 1) + 1)
  dedupSort lines

theorem newlinePositions_gt (s : List Char) :
    ∀ i, ∀ x ∈ newlinePositions s i, i < x := by
  induction s with
  | nil => intro i x hx; simp [newlinePositions] at hx
  | cons c cs ih =>
    intro i x hx
    rw [newlinePositions] at hx
    by_cases hc : c = '\n'
    · rw [if_pos hc] at hx
      rcases List.mem_cons.mp hx with h | h
      · omega
      · have := ih (i + 1) x h; omega
    · rw [if_neg hc] at hx
      have := ih (i + 1) x hx; omega

theorem newlinePositions_sorted (s : List Char) :
    ∀ i, (newlinePositions s i).Sorted (· < ·) := by
  induction s with
  | nil => intro i; simp [newlinePositions]
  | cons c cs ih =>
    intro i
    by_cases hc : c = '\n'
    · simp only [newlinePositions, hc, if_pos rfl]
      exact List.sorted_cons.mpr ⟨fun x hx => newlinePositions_gt cs (i + 1) x hx, ih (i + 1)⟩
    · simpa only [newlinePositions, if_neg hc] using ih (i + 1)

theorem lineStarts_sorted (text : List Char) : (lineStarts text).Sorted (· < ·) := by
  refine List.sorted_cons.mpr ⟨fun x hx => ?_, newlinePositions_sorted text 0⟩
  have := newlinePositions_gt text 0 x hx; omega

theorem sorted_getD_mono (arr : List Nat) (hs : arr.Sorted (· ≤ ·))
    {i j : Nat} (hij : i ≤ j) (hj : j < arr.length) :
    arr.getD i 0 ≤ arr.getD j 0 := by
  rcases Nat.eq_or_lt_of_le hij with rfl | hlt
  · exact le_refl _
  · have hi : i < arr.length := lt_trans hlt hj
    rw [List.getD_eq_get _ _ hi, List.getD_eq_get _ _ hj]
    exact hs.rel_get_of_lt hlt

theorem bsearchGo_spec (arr : List Nat) (off : Nat) (hs : arr.Sorted (· ≤ ·)) :
    ∀ fuel lo hi1, hi1 - lo ≤ fuel → lo ≤ hi1 → hi1 ≤ arr.length →
      (∀ j, j < lo → arr.getD j 0 ≤ off) →
      (∀ j, hi1 ≤ j → j < arr.length → off < arr.getD j 0) →
      lo ≤ bsearchGo arr off fuel lo hi1 ∧
      bsearchGo arr off fuel lo hi1 ≤ hi1 ∧
      (∀ j, j < bsearchGo arr off fuel lo hi1 → arr.getD j 0 ≤ off) ∧
      (∀ j, bsearchGo arr off fuel lo hi1 ≤ j → j < arr.length → off < arr.getD j 0) := by
  intro fuel
  induction fuel with
  | zero =>
    intro lo hi1 hfuel hlohi hlen hlo hhi
    have : hi1 = lo := by omega
    subst this
    exact ⟨le_refl _, le_refl _, hlo, hhi⟩
  | succ fuel ih =>
    intro lo hi1 hfuel hlohi hlen hlo hhi
    show lo ≤ bsearchGo arr off (fuel + 1) lo hi1 ∧ _
    rw [bsearchGo]
    by_cases hlt : lo < hi1
    · rw [if_pos hlt]
      have hmidlo : lo ≤ (lo + hi1 - 1) / 2 := by omega
      have hmidhi : (lo + hi1 - 1) / 2 < hi1 := by omega
      by_cases hcmp : arr.getD ((lo + hi1 - 1) / 2) 0 ≤ off
      · rw [if_pos hcmp]
        have h := ih ((lo + hi1 - 1) / 2 + 1) hi1 (by omega) (by omega) hlen
          (fun j hj => by
            by_cases hjlo : j < lo
            · exact hlo j hjlo
            · exact le_trans (sorted_getD_mono arr hs (by omega) (by omega)) hcmp)
          hhi
        exact ⟨by omega, h.2.1, h.2.2.1, h.2.2.2⟩
      · rw [if_neg hcmp]
        push_neg at hcmp
        have h := ih lo ((lo + hi1 - 1) / 2) (by omega) (by omega) (by omega) hlo
          (fun j hj hjlen =>
            lt_of_lt_of_le hcmp (sorted_getD_mono arr hs hj hjlen))
        exact ⟨h.1, by omega, h.2.2.1, h.2.2.2⟩
    · rw [if_neg hlt]
      have : hi1 = lo := by omega
      subst this
      exact ⟨le_refl _, le_refl _, hlo, hhi⟩

/-- Specification of the whole binary search: on a sorted table whose head
is `0`, the final `lo` is positive and splits the table at `off`. -/
theorem bsearchLine_spec (arr : List Nat) (off : Nat) (hs : arr.Sorted (· ≤ ·))
    (hhead : arr.getD 0 0 = 0) (hne : 0 < arr.length) :
    1 ≤ bsearchLine arr off ∧ bsearchLine arr off ≤ arr.length ∧
    (∀ j, j < bsearchLine arr off → arr.getD j 0 ≤ off) ∧
    (∀ j, bsearchLine arr off ≤ j → j < arr.length → off < arr.getD j 0) := by
  simp only [bsearchLine]
  have h := bsearchGo_spec arr off hs arr.length 0 arr.length (by omega) (by omega)
    (le_refl _) (fun j hj => absurd hj (Nat.not_lt_zero j)) (fun j hj hjlen => by omega)
  refine ⟨?_, h.2.1, h.2.2.1, h.2.2.2⟩
  by_contra hzero
  have := h.2.2.2 0 (by omega) hne
  omega

theorem mem_foldl_insertDistinct (l : List Nat) :
    ∀ acc x, (x ∈ l.foldl insertDistinct acc ↔ x ∈ acc ∨ x ∈ l) := by
  induction l with
  | nil => intro acc x; simp
  | cons y l ih =>
    intro acc x
    rw [List.foldl_cons, ih]
    unfold insertDistinct
    by_cases hy : y ∈ acc
    · rw [if_pos hy]
      constructor
      · rintro (h | h)
        · exact Or.inl h
        · exact Or.inr (List.mem_cons_of_mem _ h)
      · rintro (h | h)
        · exact Or.inl h
        · rcases List.mem_cons.mp h with rfl | h
          · exact Or.inl hy
          · exact Or.inr h
    · rw [if_neg hy]
      simp only [List.mem_append, List.mem_singleton, List.mem_cons]
      tauto

theorem nodup_foldl_insertDistinct (l : List Nat) :
    ∀ acc, acc.Nodup → (l.foldl insertDistinct acc).Nodup := by
  induction l with
  | nil => intro acc h; simpa using h
  | cons y l ih =>
    intro acc h
    rw [List.foldl_cons]
    refine ih _ ?_
    unfold insertDistinct
    by_cases hy : y ∈ acc
    · rwa [if_pos hy]
    · rw [if_neg hy]
      simpa [List.nodup_append] using ⟨h, hy⟩

theorem length_foldl_insertDistinct (l : List Nat) :
    ∀ acc, (l.foldl insertDistinct acc).length ≤ acc.length + l.length := by
  induction l with
  | nil => intro acc; simp
  | cons y l ih =>
    intro acc
    rw [List.foldl_cons]
    refine le_trans (ih _) ?_
    unfold insertDistinct
    by_cases hy : y ∈ acc
    · rw [if_pos hy]
      simp only [List.length_cons]
      omega
    · rw [if_neg hy]
      simp only [List.length_append, List.length_cons, List.length_nil]
      omega

theorem dedupSort_sorted_lt (l : List Nat) : (dedupSort l).Sorted (· < ·) := by
  have hsorted : (dedupSort l).Sorted (· ≤ ·) := List.sorted_insertionSort _ _
  have hnodup : (dedupSort l).Nodup := by
    rw [dedupSort]
    exact (List.perm_insertionSort _ _).nodup_iff.mpr
      (nodup_foldl_insertDistinct l [] List.nodup_nil)
  exact hsorted.lt_of_le hnodup

theorem mem_dedupSort (l : List Nat) (x : Nat) : x ∈ dedupSort l ↔ x ∈ l := by
  rw [dedupSort, (List.perm_insertionSort _ _).mem_iff, dedupKeepFirst,
    mem_foldl_insertDistinct]
  simp

theorem length_dedupSort_le (l : List Nat) : (dedupSort l).length ≤ l.length := by
  rw [dedupSort, (List.perm_insertionSort _ _).length_eq, dedupKeepFirst]
  simpa using length_foldl_insertDistinct l []

/-- C5: the Position Indexer is a pure total function; for every text and
every offset list it returns distinct 1-based line numbers sorted
ascending, each offset contributing the line of the greatest line-start
`≤` that offset (found by binary search over the line-start table); the
empty offset list yields the empty result, and for the text
`"SHA256\nAES\n"` offsets 0 and 7 map to lines 1 and 2. -/
theorem offsetToLineNumbers_spec :
    (∀ text offsets, (offsetToLineNumbers text offsets).Sorted (· < ·))
    ∧ (∀ text, offsetToLineNumbers text [] = [])
    ∧ (∀ text offsets off, off ∈ offsets →
        ∃ k, k < (lineStarts text).length ∧
          (k + 1) ∈ offsetToLineNumbers text offsets ∧
          (lineStarts text).getD k 0 ≤ off ∧
          (∀ j, j < (lineStarts text).length → (lineStarts text).getD j 0 ≤ off →
            (lineStarts text).getD j 0 ≤ (lineStarts text).getD k 0))
    ∧ offsetToLineNumbers "SHA256\nAES\n".data [0, 7] = [1, 2] := by
  refine ⟨fun text offsets => dedupSort_sorted_lt _, fun text => rfl, ?_, by decide⟩
  intro text offsets off hoff
  have hs : (lineStarts text).Sorted (· ≤ ·) := (lineStarts_sorted text).le_of_lt
  have hhead : (lineStarts text).getD 0 0 = 0 := rfl
  have hne : 0 < (lineStarts text).length := by simp [lineStarts]
  obtain ⟨h1, h2, h3, h4⟩ := bsearchLine_spec (lineStarts text) off hs hhead hne
  refine ⟨bsearchLine (lineStarts text) off - 1, by omega, ?_, h3 _ (by omega), ?_⟩
  · have hmem : (bsearchLine (lineStarts text) off - 1) + 1
        ∈ offsets.map (fun o => (bsearchLine (lineStarts text) o - 1) + 1) :=
      List.mem_map_of_mem _ hoff
    exact (mem_dedupSort _ _).mpr hmem
  · intro j hj hle
    by_cases hjk : j ≤ bsearchLine (lineStarts text) off - 1
    · exact sorted_getD_mono _ hs hjk (by omega)
    · exact absurd (h4 j (by omega) hj) (by omega)

/-- Closed instance of `offsetToLineNumbers_spec` (third part at offset 7 of
`"SHA256\nAES\n"` inside the offset list `[0, 7]`). -/
theorem offsetToLineNumbers_spec_witness :
    ∃ k, k < (lineStarts "SHA256\nAES\n".data).length ∧
      (k + 1) ∈ offsetToLineNumbers "SHA256\nAES\n".data [0, 7] ∧
      (lineStarts "SHA256\nAES\n".data).getD k 0 ≤ 7 ∧
      (∀ j, j < (lineStarts "SHA256\nAES\n".data).length →
        (lineStarts "SHA256\nAES\n".data).getD j 0 ≤ 7 →
        (lineStarts "SHA256\nAES\n".data).getD j 0
          ≤ (lineStarts "SHA256\nAES\n".data).getD k 0) :=
  offsetToLineNumbers_spec.2.2.1 "SHA256\nAES\n".data [0, 7] 7 (by decide)

/-! ## Match collection (src/parser/regex-detector.ts, `detectInDocument`,
lines 211-251).  The JS `RegExp` engine is external; a compiled pattern is
modelled by its match function `m : Nat → Option Nat` giving, for each start
position within the fixed text, the length of the match beginning there (as
`regex.exec` resumes from `lastIndex`, this function determines the whole
scan).  Matches start at positions ≤ text length. -/

/-- First position `i ≥ l` (searching at most `fuel` positions) where the
pattern matches, with its match length: the behaviour of `regex.exec` with
the `g` flag resuming at `lastIndex = l`. -/
def findMatchGo (m : Nat → Option Nat) : Nat → Nat → Option (Nat × Nat)
  | 0, _ => none
  | fuel + 1, l =>
    match m l with
    | some len => some (l, len)
    | none => findMatchGo m fuel (l + 1)

/-- Model of `regex.exec` from `lastIndex = l` on a text of length `n` (candidate
start positions run from `l` to `n` inclusive). -/
def findMatchFrom (m : Nat → Option Nat) (n l : Nat) : Option (Nat × Nat) :=
  findMatchGo m (n + 1 - l) l

/-- The `while ((match = regex.exec(text)) !== null)` loop of lines 220-223:
collect each match offset and resume at `index + length`, bumped by one when
the match was empty (`if (match[0].length === 0) regex.lastIndex++`).
`fuel` bounds the iteration count. -/
def collectGo (m : Nat → Option Nat) (n : Nat) : Nat → Nat → List Nat
  | 0, _ => []
  | fuel + 1, l =>
    match findMatchFrom m n l with
    | none => []
    | some (i, len) => i :: collectGo m n fuel (i + max 1 len)

/-- All match offsets of one compiled pattern over a text of length `n`
(the loop enters with `lastIndex = 0`; `n + 1` iterations always suffice). -/
def execOffsets (m : Nat → Option Nat) (n : Nat) : List Nat :=
  collectGo m n (n + 1) 0

theorem findMatchGo_some (m : Nat → Option Nat) :
    ∀ fuel l i len, findMatchGo m fuel l = some (i, len) →
      l ≤ i ∧ i < l + fuel ∧ m i = some len := by
  intro fuel
  induction fuel with
  | zero => intro l i len h; simp [findMatchGo] at h
  | succ fuel ih =>
    intro l i len h
    rw [findMatchGo] at h
    cases hm : m l with
    | some len0 =>
      rw [hm] at h
      simp only [Option.some.injEq, Prod.mk.injEq] at h
      obtain ⟨rfl, rfl⟩ := h
      exact ⟨le_refl _, by omega, hm⟩
    | none =>
      rw [hm] at h
      obtain ⟨h1, h2, h3⟩ := ih (l + 1) i len h
      exact ⟨by omega, by omega, h3⟩

theorem collectGo_spec (m : Nat → Option Nat) (n : Nat) :
    ∀ fuel l, n + 1 - l ≤ fuel →
      (collectGo m n fuel l).length ≤ n + 1 - l ∧
      (∀ x ∈ collectGo m n fuel l, l ≤ x ∧ x ≤ n) ∧
      (collectGo m n fuel l).Chain' (· < ·) ∧
      (∀ fuel2, n + 1 - l ≤ fuel2 → collectGo m n fuel2 l = collectGo m n fuel l) := by
  intro fuel
  induction fuel with
  | zero =>
    intro l hfuel
    have hl : n + 1 - l = 0 := by omega
    have hnone : findMatchFrom m n l = none := by
      rw [findMatchFrom, hl]; rfl
    refine ⟨by simp [collectGo], by simp [collectGo], by simp [collectGo], ?_⟩
    intro fuel2 hfuel2
    cases fuel2 with
    | zero => rfl
    | succ fuel2 => simp [collectGo, hnone]
  | succ fuel ih =>
    intro l hfuel
    cases hfind : findMatchFrom m n l with
    | none =>
      have hz : collectGo m n (fuel + 1) l = [] := by simp [collectGo, hfind]
      refine ⟨by simp [hz], by simp [hz], by simp [hz], ?_⟩
      intro fuel2 hfuel2
      cases fuel2 with
      | zero => simp [collectGo, hfind, hz]
      | succ fuel2 => simp [collectGo, hfind]
    | some p =>
      obtain ⟨i, len⟩ := p
      have hb := findMatchGo_some m (n + 1 - l) l i len
        (by rw [findMatchFrom] at hfind; exact hfind)
      have hi1 : l ≤ i := hb.1
      have hi2 : i ≤ n := by omega
      have hnext : n + 1 - (i + max 1 len) ≤ fuel := by omega
      obtain ⟨ihlen, ihmem, ihchain, ihfuel⟩ := ih (i + max 1 len) hnext
      have hc : collectGo m n (fuel + 1) l = i :: collectGo m n fuel (i + max 1 len) := by
        simp [collectGo, hfind]
      refine ⟨?_, ?_, ?_, ?_⟩
      · rw [hc]
        simp only [List.length_cons]
        omega
      · intro x hx
        rw [hc] at hx
        rcases List.mem_cons.mp hx with rfl | hx
        · exact ⟨hi1, hi2⟩
        · have := ihmem x hx
          omega
      · rw [hc, List.chain'_cons']
        refine ⟨?_, ihchain⟩
        intro y hy
        have hy' : y ∈ collectGo m n fuel (i + max 1 len) := by
          cases hcc : collectGo m n fuel (i + max 1 len) with
          | nil => rw [hcc] at hy; simp at hy
          | cons a t =>
            rw [hcc] at hy
            simp only [List.head?_cons, Option.mem_def, Option.some.injEq] at hy
            rw [← hy]
            exact List.mem_cons_self _ _
        have := ihmem y hy'
        omega
      · intro fuel2 hfuel2
        cases fuel2 with
        | zero => omega
        | succ fuel2 =>
          rw [hc]
          have hc2 : collectGo m n (fuel2 + 1) l
              = i :: collectGo m n fuel2 (i + max 1 len) := by
            simp [collectGo, hfind]
          rw [hc2]
          congr 1
          exact ihfuel fuel2 (by omega)

/-- C9: the per-pattern match-collection loop of the lexical detector
terminates on every text and pattern: a zero-length match forces the cursor
forward by one, every collected offset strictly exceeds the previous one,
at most `n + 1` offsets are collected over a text of length `n`, and any
fuel of at least `n + 1` iterations yields the same (completed) scan. -/
theorem execOffsets_terminates (m : Nat → Option Nat) (n : Nat) :
    (execOffsets m n).length ≤ n + 1 ∧
    (execOffsets m n).Chain' (· < ·) ∧
    (∀ x ∈ execOffsets m n, x ≤ n) ∧
    (∀ fuel, n + 1 ≤ fuel → collectGo m n fuel 0 = execOffsets m n) := by
  obtain ⟨h1, h2, h3, h4⟩ := collectGo_spec m n (n + 1) 0 (by omega)
  exact ⟨by simpa using h1, h3, fun x hx => (h2 x hx).2, fun fuel hf => h4 fuel (by omega)⟩

/-- Closed instance of `execOffsets_terminates`: surplus fuel does not
change the scan of a two-match pattern over a 7-character text. -/
theorem execOffsets_terminates_witness :
    collectGo (fun i => if i = 0 || i = 4 then some 3 else none) 7 100 0
      = execOffsets (fun i => if i = 0 || i = 4 then some 3 else none) 7 :=
  (execOffsets_terminates (fun i => if i = 0 || i = 4 then some 3 else none) 7).2.2.2
    100 (by omega)

/-! ## Canonical asset model (src/parser/types.ts).  The source carries two
overlapping `CryptoAsset` interfaces; this structure holds the union of the
fields the embedded detectors populate, with neutral defaults for fields a
given detector leaves undefined. -/

/-- The `DetectionContext` of types.ts. -/
structure DetectionContext where
  filePath : String
  lineNumbers : List Nat
  snippet : String
deriving DecidableEq

/-- The `CryptoAsset` of types.ts. -/
structure CryptoAsset where
  id : String := ""
  assetType : String := "algorithm"
  primitive : String := ""
  name : String := ""
  description : String := ""
  quantumSafe : QSafe := QSafe.unk
  detectionContexts : List DetectionContext := []
  occurrences : Nat := 0
  severity : Severity := Severity.low
  riskScore : Int := 0
  type : String := ""
  score : Int := 0
  reason : String := ""
  source : String := ""
  line : Nat := 0
deriving DecidableEq

/-! ## Lexical detector (src/parser/regex-detector.ts,
`regexDetector.detectInDocument`, lines 190-256) -/

/-- One entry of `algorithmDB` (lines 11-150); the compiled regex is
modelled by its match function over a given text. -/
structure AlgorithmInfo where
  regexAt : List Char → Nat → Option Nat
  type : String
  quantumSafe : QSafe
  description : String

/-- Model of `str.replace(/\s+/g, c)`: collapse each maximal whitespace run to one
`target` character; `prevWs` records whether the previous character was
whitespace. -/
def collapseWsGo (target : Char) : List Char → Bool → List Char
  | [], _ => []
  | c :: cs, prevWs =>
    if c.isWhitespace then
      if prevWs then collapseWsGo target cs true
      else target :: collapseWsGo target cs true
    else c :: collapseWsGo target cs false

/-- Embedding of `makeId` (regex-detector.ts lines 155-157). -/
def makeId (name : String) : String :=
  "regex:" ++ String.mk (collapseWsGo '-' (lowerList name.data) false)

/-- Model of the `.replace(/\r?\n/g, ' ')` of `snippetAt` (line 184): each `"\r\n"` or
`"\n"` becomes one space; a lone `'\r'` is kept. -/
def collapseNewlines : List Char → List Char
  | [] => []
  | '\r' :: '\n' :: rest => ' ' :: collapseNewlines rest
  | '\n' :: rest => ' ' :: collapseNewlines rest
  | c :: rest => c :: collapseNewlines rest

/-- Embedding of `snippetAt` (regex-detector.ts lines 181-185), radius 80. -/
def snippetAt (text : List Char) (index : Nat) : String :=
  let start := index - 80
  let stop := min text.length (index + 80)
  String.mk (collapseNewlines ((text.drop start).take (stop - start)))

/-- JS object property assignment `found[id] = v`: replace in place when the
key exists, append otherwise (JS objects keep key insertion order). -/
def recordSet (found : List (String × CryptoAsset)) (k : String) (v : CryptoAsset) :
    List (String × CryptoAsset) :=
  match found with
  | [] => [(k, v)]
  | (k', v') :: rest => if k' = k then (k, v) :: rest else (k', v') :: recordSet rest k v

/-- Model of `Object.values(found)`. -/
def recordValues (found : List (String × CryptoAsset)) : List CryptoAsset :=
  found.map Prod.snd

/-- Keys of the record. -/
def recordKeys (found : List (String × CryptoAsset)) : List String :=
  found.map Prod.fst

/-- The asset stored at lines 232-247 for a rule whose offset list is
non-empty. -/
def buildAsset (name : String) (info : AlgorithmInfo) (text : List Char) (fsPath : String)
    (offsets : List Nat) : CryptoAsset :=
  let rp := assignRisk info.quantumSafe info.type name
  { id := makeId name
    assetType := "algorithm"
    primitive := info.type
    name := name
    description := info.description
    quantumSafe := info.quantumSafe
    detectionContexts := [{ filePath := fsPath
                            lineNumbers := offsetToLineNumbers text offsets
                            snippet := snippetAt text (offsets.headD 0) }]
    occurrences := offsets.length
    severity := rp.severity
    riskScore := rp.score }

/-- Body of the rule loop (lines 211-251): collect the rule's offsets and
store one asset into the `found` record when any were found. -/
def detectStep (text : List Char) (fsPath : String)
    (found : List (String × CryptoAsset)) (entry : String × AlgorithmInfo) :
    List (String × CryptoAsset) :=
  let offsets := execOffsets (entry.2.regexAt text) text.length
  if offsets.isEmpty then found
  else recordSet found (makeId entry.1) (buildAsset entry.1 entry.2 text fsPath offsets)

/-- Embedding of `regexDetector.detectInDocument` (lines 200-255): the file
has been read into `text`; iterate `algorithmDB` and return
`Object.values(found)`. -/
def regexDetectInDocument (db : List (String × AlgorithmInfo)) (text : List Char)
    (fsPath : String) : List CryptoAsset :=
  recordValues (db.foldl (detectStep text fsPath) [])

/-! ## Word-bounded literal matching: the model of the JS regexes
`\bLIT\b` with flag `i` used to instantiate detectors on concrete inputs
(the literals below contain no regex metacharacters). -/

/-- JS `\w` (ASCII word character). -/
def isWordChar (c : Char) : Bool := c.isAlphanum || c = '_'

/-- JS `\b` between positions `p - 1` and `p` of `text`. -/
def isBoundary (text : List Char) (p : Nat) : Bool :=
  let before := if p = 0 then false else isWordChar (text.getD (p - 1) ' ')
  let after := if p < text.length then isWordChar (text.getD p ' ') else false
  before != after

/-- Match function of `\bLIT\b` (case-insensitive) at position `i`. -/
def wordMatchAt (pat text : List Char) (i : Nat) : Option Nat :=
  if leadingEq (lowerList pat) (lowerList (text.drop i)) && isBoundary text i &&
      isBoundary text (i + pat.length) then some pat.length
  else none

/-! ## Workspace scanner (src/parser/index.ts, `scanWorkspace`,
lines 33-59) -/

/-- Assoc lookup, `aggregated[a.id]`. -/
def recordLookup (agg : List (String × CryptoAsset)) (k : String) : Option CryptoAsset :=
  match agg with
  | [] => none
  | (k', v) :: rest => if k' = k then some v else recordLookup rest k

/-- Lines 44-49: merge one asset into the aggregation record; a new identity
is stored as-is (`{ ...a }` is a field-for-field copy), an existing one has
`occurrences` summed and `detectionContexts` appended. -/
def mergeAssetInto (agg : List (String × CryptoAsset)) (a : CryptoAsset) :
    List (String × CryptoAsset) :=
  match recordLookup agg a.id with
  | none => agg ++ [(a.id, a)]
  | some e => recordSet agg a.id
      { e with occurrences := e.occurrences + a.occurrences
               detectionContexts := e.detectionContexts ++ a.detectionContexts }

/-- One file's contribution (the try block of lines 41-53): a per-file
detector error (`Except.error`) is swallowed and leaves the accumulator
unchanged. -/
def mergeFile (detect : String → Except Unit (List CryptoAsset))
    (agg : List (String × CryptoAsset)) (uri : String) :
    List (String × CryptoAsset) :=
  match detect uri with
  | Except.ok assets => assets.foldl mergeAssetInto agg
  | Except.error _ => agg

/-- The file loop of `scanWorkspace` (lines 39-56).  `c k` is the
cancellation token's state when `k` files have been processed (checked
before each file); `prog` accumulates the `processed` values handed to the
progress callback, which runs after every file, error or not. -/
def scanWorkspaceGo (detect : String → Except Unit (List CryptoAsset)) (c : Nat → Bool) :
    List String → Nat → List (String × CryptoAsset) → List Nat →
    List (String × CryptoAsset) × List Nat
  | [], _, agg, prog => (agg, prog)
  | uri :: rest, processed, agg, prog =>
    if c processed then (agg, prog)
    else scanWorkspaceGo detect c rest (processed + 1) (mergeFile detect agg uri)
      (prog ++ [processed + 1])

/-- Embedding of `scanWorkspace` (index.ts lines 33-59): the returned assets are
`Object.values(aggregated)`; the second component is the trace of
`processed` values reported. -/
def scanWorkspace (detect : String → Except Unit (List CryptoAsset)) (c : Nat → Bool)
    (files : List String) : List CryptoAsset × List Nat :=
  let r := scanWorkspaceGo detect c files 0 [] []
  (recordValues r.1, r.2)

/-! ## Record lemmas -/

theorem recordSet_fresh (k : String) (v : CryptoAsset) :
    ∀ found, k ∉ recordKeys found → recordSet found k v = found ++ [(k, v)] := by
  intro found
  induction found with
  | nil => intro _; rfl
  | cons p rest ih =>
    intro h
    obtain ⟨k', v'⟩ := p
    simp only [recordKeys, List.map_cons, List.mem_cons] at h
    push_neg at h
    rw [recordSet, if_neg (by exact fun hk => h.1 hk.symm)]
    rw [ih (by simpa [recordKeys] using h.2)]
    rfl

theorem recordValues_append (f1 f2 : List (String × CryptoAsset)) :
    recordValues (f1 ++ f2) = recordValues f1 ++ recordValues f2 := by
  simp [recordValues]

theorem recordKeys_append (f1 f2 : List (String × CryptoAsset)) :
    recordKeys (f1 ++ f2) = recordKeys f1 ++ recordKeys f2 := by
  simp [recordKeys]

theorem recordValues_recordSet_sub (k : String) (v : CryptoAsset) :
    ∀ found, ∀ x ∈ recordValues (recordSet found k v), x = v ∨ x ∈ recordValues found := by
  intro found
  induction found with
  | nil =>
    intro x hx
    simp only [recordSet, recordValues, List.map_cons, List.map_nil, List.mem_singleton] at hx
    exact Or.inl hx
  | cons p rest ih =>
    intro x hx
    obtain ⟨k', v'⟩ := p
    rw [recordSet] at hx
    by_cases hk : k' = k
    · rw [if_pos hk] at hx
      simp only [recordValues, List.map_cons, List.mem_cons] at hx
      rcases hx with rfl | hx
      · exact Or.inl rfl
      · exact Or.inr (by simp [recordValues]; right; simpa [recordValues] using hx)
    · rw [if_neg hk] at hx
      simp only [recordValues, List.map_cons, List.mem_cons] at hx
      rcases hx with rfl | hx
      · exact Or.inr (by simp [recordValues])
      · rcases ih x (by simpa [recordValues] using hx) with h | h
        · exact Or.inl h
        · exact Or.inr (by simp [recordValues]; right; simpa [recordValues] using h)

theorem recordLookup_mem (k : String) :
    ∀ agg e, recordLookup agg k = some e → e ∈ recordValues agg := by
  intro agg
  induction agg with
  | nil => intro e h; simp [recordLookup] at h
  | cons p rest ih =>
    intro e h
    obtain ⟨k', v'⟩ := p
    rw [recordLookup] at h
    by_cases hk : k' = k
    · rw [if_pos hk] at h
      simp only [Option.some.injEq] at h
      simp [recordValues, h]
    · rw [if_neg hk] at h
      simp only [recordValues, List.map_cons, List.mem_cons]
      exact Or.inr (by simpa [recordValues] using ih e h)

/-! ## C6: one asset per matching rule -/

theorem fold_detectStep_eq (text : List Char) (fsPath : String) :
    ∀ (db : List (String × AlgorithmInfo)) (found : List (String × CryptoAsset)),
      (∀ p ∈ db, makeId p.1 ∉ recordKeys found) →
      (db.map (fun p => makeId p.1)).Nodup →
      db.foldl (detectStep text fsPath) found
        = found ++ (db.filter
            (fun p => !(execOffsets (p.2.regexAt text) text.length).isEmpty)).map
            (fun p => (makeId p.1,
              buildAsset p.1 p.2 text fsPath (execOffsets (p.2.regexAt text) text.length))) := by
  intro db
  induction db with
  | nil => intro found _ _; simp
  | cons p db ih =>
    intro found hfresh hnodup
    rw [List.map_cons, List.nodup_cons] at hnodup
    rw [List.foldl_cons]
    by_cases hmatch : (execOffsets (p.2.regexAt text) text.length).isEmpty
    · have hstep : detectStep text fsPath found p = found := by
        rw [detectStep, if_pos hmatch]
      rw [hstep, List.filter_cons_of_neg (by simpa using hmatch)]
      exact ih found (fun q hq => hfresh q (List.mem_cons_of_mem _ hq)) hnodup.2
    · have hstep : detectStep text fsPath found p
          = found ++ [(makeId p.1,
              buildAsset p.1 p.2 text fsPath (execOffsets (p.2.regexAt text) text.length))] := by
        rw [detectStep, if_neg hmatch]
        exact recordSet_fresh _ _ found (hfresh p (List.mem_cons_self _ _))
      rw [hstep, List.filter_cons_of_pos (by simpa using hmatch), List.map_cons]
      have hnodup' : (db.map (fun p => makeId p.1)).Nodup := hnodup.2
      have hhead : makeId p.1 ∉ db.map (fun p => makeId p.1) := hnodup.1
      rw [ih _ (fun q hq => by
          rw [recordKeys_append]
          simp only [List.mem_append]
          push_neg
          refine ⟨hfresh q (List.mem_cons_of_mem _ hq), ?_⟩
          simp only [recordKeys, List.map_cons, List.map_nil, List.mem_singleton]
          intro hEq
          exact hhead (hEq ▸ List.mem_map_of_mem (fun p => makeId p.1) hq))
        hnodup']
      simp

theorem filter_map_key_le_one (key : String) :
    ∀ (l : List (String × AlgorithmInfo)) (F : String × AlgorithmInfo → CryptoAsset),
      (l.map (fun p => makeId p.1)).Nodup →
      (∀ p, (F p).id = makeId p.1) →
      ((l.map F).filter (fun a => a.id == key)).length ≤ 1 := by
  intro l
  induction l with
  | nil => intro F _ _; simp
  | cons q l ih =>
    intro F hnodup hF
    rw [List.map_cons, List.nodup_cons] at hnodup
    rw [List.map_cons, List.filter_cons]
    by_cases hq : ((F q).id == key) = true
    · rw [if_pos hq]
      have hrest : (l.map F).filter (fun a => a.id == key) = [] := by
        rw [List.filter_eq_nil]
        intro a ha
        obtain ⟨p, hp, rfl⟩ := List.mem_map.mp ha
        have hkey : makeId q.1 = key := by
          have := hF q
          rwa [this, beq_iff_eq] at hq
        have hne : makeId p.1 ≠ makeId q.1 := by
          intro hEq
          exact hnodup.1 (hEq ▸ List.mem_map_of_mem (fun p => makeId p.1) hp)
        rw [hF p, beq_iff_eq, ← hkey]
        exact hne
      rw [hrest]
      simp
    · rw [if_neg hq]
      exact ih F hnodup.2 hF

/-- C6: when the rule ids are pairwise distinct (they are: `algorithmDB` is
a record literal with distinct keys), the lexical detector emits exactly
one asset per rule with at least one match and none for the others, in rule
order, with `occurrences` the number of collected match offsets, the line
numbers obtained from the Position Indexer on those offsets and the snippet
taken around the first offset (all per `buildAsset`); in particular at most
one asset per rule. -/
theorem regexDetector_one_asset_per_rule (db : List (String × AlgorithmInfo))
    (text : List Char) (fsPath : String)
    (hids : (db.map (fun p => makeId p.1)).Nodup) :
    regexDetectInDocument db text fsPath
      = (db.filter (fun p => !(execOffsets (p.2.regexAt text) text.length).isEmpty)).map
          (fun p => buildAsset p.1 p.2 text fsPath (execOffsets (p.2.regexAt text) text.length))
    ∧ ∀ p ∈ db,
        ((regexDetectInDocument db text fsPath).filter
          (fun a => a.id == makeId p.1)).length ≤ 1 := by
  have hmain : regexDetectInDocument db text fsPath
      = (db.filter (fun p => !(execOffsets (p.2.regexAt text) text.length).isEmpty)).map
          (fun p => buildAsset p.1 p.2 text fsPath
            (execOffsets (p.2.regexAt text) text.length)) := by
    rw [regexDetectInDocument, fold_detectStep_eq text fsPath db [] (by simp [recordKeys]) hids]
    simp only [List.nil_append, recordValues, List.map_map]
    rfl
  refine ⟨hmain, fun p hp => ?_⟩
  rw [hmain]
  have hsub : ((db.filter
        (fun p => !(execOffsets (p.2.regexAt text) text.length).isEmpty)).map
        (fun p => makeId p.1)).Nodup :=
    (List.filter_sublist db).map (fun p => makeId p.1) |>.nodup hids
  have := filter_map_key_le_one (makeId p.1)
    (db.filter (fun p => !(execOffsets (p.2.regexAt text) text.length).isEmpty))
    (fun p => buildAsset p.1 p.2 text fsPath (execOffsets (p.2.regexAt text) text.length))
    hsub (fun q => rfl)
  exact this

/-! ## Concrete rule-database entries used for concrete runs -/

/-- The `AES` entry of `algorithmDB` (regex-detector.ts lines 68-73).  On
texts where the optional `[-_]?(128|192|256)?` suffix matches nothing, the
compiled regex behaves as `\baes\b` with flag `i`, which is the match
function used here. -/
def aesInfo : AlgorithmInfo :=
  { regexAt := fun text i => wordMatchAt "aes".data text i
    type := "cipher"
    quantumSafe := QSafe.part
    description := "Advanced Encryption Standard" }

/-- The `MD5` entry of `algorithmDB` (lines 18-23): `\bmd5\b`, flag `i`. -/
def md5Info : AlgorithmInfo :=
  { regexAt := fun text i => wordMatchAt "md5".data text i
    type := "hash"
    quantumSafe := QSafe.no
    description := "Cryptographically broken hash function" }

/-- Two-rule database for concrete runs. -/
def c6db : List (String × AlgorithmInfo) := [("AES", aesInfo), ("MD5", md5Info)]

/-- Closed instance of `regexDetector_one_asset_per_rule` (second part at
the `AES` rule): at most one `regex:aes` asset on the text `"aes md5"`. -/
theorem regexDetector_one_asset_per_rule_witness :
    ((regexDetectInDocument c6db "aes md5".data "w.py").filter
      (fun a => a.id == makeId ("AES", aesInfo).1)).length ≤ 1 :=
  (regexDetector_one_asset_per_rule c6db "aes md5".data "w.py" (by decide)).2
    ("AES", aesInfo) (List.mem_cons_self _ _)

/-! ## C3: occurrences versus context line counts -/

/-- Sum of `lineNumbers.length` over all detection contexts of an asset. -/
def ctxLineSum (a : CryptoAsset) : Nat :=
  (a.detectionContexts.map (fun c => c.lineNumbers.length)).sum

/-- Per-file detection for the C3 run: the lexical detector over the
one-line text `"aes aes"`, where the AES rule matches twice on line 1. -/
def c3detect : String → Except Unit (List CryptoAsset) :=
  fun uri => Except.ok (regexDetectInDocument [("AES", aesInfo)] "aes aes".data uri)

/-- C3 fails on the code: scanning the one-line file `"aes aes"` (per-file
lexical detection followed by the workspace merge) yields an AES asset with
`occurrences = 2` but a single context line number, so `occurrences` does
not equal the sum of `lineNumbers.length` over its contexts. -/
theorem occurrences_invariant_counterexample :
    ¬ (∀ a ∈ (scanWorkspace c3detect (fun _ => false) ["f.py"]).1,
        a.occurrences = ctxLineSum a) := by decide

theorem ctxLineSum_buildAsset (name : String) (info : AlgorithmInfo) (text : List Char)
    (fsPath : String) (offsets : List Nat) :
    ctxLineSum (buildAsset name info text fsPath offsets)
      ≤ (buildAsset name info text fsPath offsets).occurrences := by
  show (offsetToLineNumbers text offsets).length + 0 ≤ offsets.length
  rw [Nat.add_zero, offsetToLineNumbers]
  refine le_trans (length_dedupSort_le _) ?_
  simp

theorem detector_values_bound (text : List Char) (fsPath : String) :
    ∀ (db : List (String × AlgorithmInfo)) (found : List (String × CryptoAsset)),
      (∀ x ∈ recordValues found, ctxLineSum x ≤ x.occurrences) →
      ∀ x ∈ recordValues (db.foldl (detectStep text fsPath) found),
        ctxLineSum x ≤ x.occurrences := by
  intro db
  induction db with
  | nil => intro found h; exact h
  | cons p db ih =>
    intro found h
    rw [List.foldl_cons]
    refine ih _ ?_
    rw [detectStep]
    by_cases hmatch : (execOffsets (p.2.regexAt text) text.length).isEmpty
    · rw [if_pos hmatch]; exact h
    · rw [if_neg hmatch]
      intro x hx
      rcases recordValues_recordSet_sub _ _ found x hx with rfl | hx
      · exact ctxLineSum_buildAsset _ _ _ _ _
      · exact h x hx

theorem mergeAssetInto_bound (agg : List (String × CryptoAsset)) (a : CryptoAsset)
    (hagg : ∀ x ∈ recordValues agg, ctxLineSum x ≤ x.occurrences)
    (ha : ctxLineSum a ≤ a.occurrences) :
    ∀ x ∈ recordValues (mergeAssetInto agg a), ctxLineSum x ≤ x.occurrences := by
  intro x hx
  rw [mergeAssetInto] at hx
  cases hl : recordLookup agg a.id with
  | none =>
    rw [hl] at hx
    rw [recordValues_append] at hx
    rcases List.mem_append.mp hx with hx | hx
    · exact hagg x hx
    · simp only [recordValues, List.map_cons, List.map_nil, List.mem_singleton] at hx
      rw [hx]; exact ha
  | some e =>
    rw [hl] at hx
    rcases recordValues_recordSet_sub _ _ agg x hx with rfl | hx
    · have he : ctxLineSum e ≤ e.occurrences := hagg e (recordLookup_mem a.id agg e hl)
      have hsum : ctxLineSum { e with
            occurrences := e.occurrences + a.occurrences,
            detectionContexts := e.detectionContexts ++ a.detectionContexts }
          = ctxLineSum e + ctxLineSum a := by
        simp [ctxLineSum]
      rw [hsum]
      show ctxLineSum e + ctxLineSum a ≤ e.occurrences + a.occurrences
      omega
    · exact hagg x hx

theorem foldl_merge_bound (assets : List CryptoAsset) :
    ∀ agg, (∀ x ∈ recordValues agg, ctxLineSum x ≤ x.occurrences) →
      (∀ a ∈ assets, ctxLineSum a ≤ a.occurrences) →
      ∀ x ∈ recordValues (assets.foldl mergeAssetInto agg), ctxLineSum x ≤ x.occurrences := by
  induction assets with
  | nil => intro agg h _; exact h
  | cons a assets ih =>
    intro agg h has
    rw [List.foldl_cons]
    exact ih _ (mergeAssetInto_bound agg a h (has a (List.mem_cons_self _ _)))
      (fun b hb => has b (List.mem_cons_of_mem _ hb))

theorem scanWorkspaceGo_bound (detect : String → Except Unit (List CryptoAsset))
    (c : Nat → Bool)
    (hdet : ∀ f as, detect f = Except.ok as → ∀ a ∈ as, ctxLineSum a ≤ a.occurrences) :
    ∀ (files : List String) (p : Nat) (agg : List (String × CryptoAsset)) (prog : List Nat),
      (∀ x ∈ recordValues agg, ctxLineSum x ≤ x.occurrences) →
      ∀ x ∈ recordValues (scanWorkspaceGo detect c files p agg prog).1,
        ctxLineSum x ≤ x.occurrences := by
  intro files
  induction files with
  | nil => intro p agg prog h; exact h
  | cons uri rest ih =>
    intro p agg prog h
    rw [scanWorkspaceGo]
    by_cases hc : c p
    · rw [if_pos hc]; exact h
    · rw [if_neg hc]
      refine ih _ _ _ ?_
      rw [mergeFile]
      cases hd : detect uri with
      | ok assets => exact foldl_merge_bound assets agg h (hdet uri assets hd)
      | error e => exact h

/-- C3 amended: for every asset the lexical detector emits, the sum of
`lineNumbers.length` over its contexts is at most `occurrences` (equality
can fail exactly when one rule matches twice on the same line, since the
line list is deduplicated while `occurrences` counts match offsets), and
the workspace merge preserves this bound: merged outputs of any detector
whose per-file assets satisfy the bound satisfy it as well. -/
theorem occurrences_bound_amended :
    (∀ (db : List (String × AlgorithmInfo)) (text : List Char) (fsPath : String),
      ∀ a ∈ regexDetectInDocument db text fsPath, ctxLineSum a ≤ a.occurrences)
    ∧ (∀ (detect : String → Except Unit (List CryptoAsset)) (c : Nat → Bool)
        (files : List String),
        (∀ f as, detect f = Except.ok as → ∀ a ∈ as, ctxLineSum a ≤ a.occurrences) →
        ∀ a ∈ (scanWorkspace detect c files).1, ctxLineSum a ≤ a.occurrences) := by
  constructor
  · intro db text fsPath a ha
    exact detector_values_bound text fsPath db [] (by simp [recordValues]) a ha
  · intro detect c files hdet a ha
    exact scanWorkspaceGo_bound detect c hdet files 0 [] [] (by simp [recordValues]) a ha

/-- The AES asset the lexical detector emits for the one-line text
`"aes aes"`. -/
def c3aesAsset : CryptoAsset :=
  { id := "regex:aes"
    assetType := "algorithm"
    primitive := "cipher"
    name := "AES"
    description := "Advanced Encryption Standard"
    quantumSafe := QSafe.part
    detectionContexts := [{ filePath := "f.py", lineNumbers := [1], snippet := "aes aes" }]
    occurrences := 2
    severity := Severity.medium
    riskScore := 65 }

/-- Closed instance of `occurrences_bound_amended` (first part at the AES
asset of the `"aes aes"` run). -/
theorem occurrences_bound_amended_witness :
    ctxLineSum c3aesAsset ≤ c3aesAsset.occurrences :=
  occurrences_bound_amended.1 [("AES", aesInfo)] "aes aes".data "f.py" c3aesAsset (by decide)

/-! ## C4: workspace merge additivity -/

/-- Per-file detection for the C4 run: lexical detection over the text
`"AES"` (each scanned file contains one AES instance). -/
def aesDetect : String → Except Unit (List CryptoAsset) :=
  fun uri => Except.ok (regexDetectInDocument [("AES", aesInfo)] "AES".data uri)

/-- The single workspace-level AES asset after merging the two files. -/
def c4asset : CryptoAsset :=
  { id := "regex:aes"
    assetType := "algorithm"
    primitive := "cipher"
    name := "AES"
    description := "Advanced Encryption Standard"
    quantumSafe := QSafe.part
    detectionContexts := [{ filePath := "a.py", lineNumbers := [1], snippet := "AES" },
                          { filePath := "b.py", lineNumbers := [1], snippet := "AES" }]
    occurrences := 2
    severity := Severity.medium
    riskScore := 65 }

/-- C4: the workspace merge is additive: a per-file asset whose identity is
new is stored unchanged, one whose identity already exists has the stored
`occurrences` summed and the contexts concatenated; scanning the two files
`a.py`, `b.py` that each contain one `"AES"` yields a single workspace
asset with `occurrences = 2` and exactly two detection contexts. -/
theorem scanWorkspace_merge_additive :
    (∀ agg a, recordLookup agg a.id = none → mergeAssetInto agg a = agg ++ [(a.id, a)])
    ∧ (∀ agg a e, recordLookup agg a.id = some e →
        mergeAssetInto agg a = recordSet agg a.id { e with
          occurrences := e.occurrences + a.occurrences,
          detectionContexts := e.detectionContexts ++ a.detectionContexts })
    ∧ (scanWorkspace aesDetect (fun _ => false) ["a.py", "b.py"]).1 = [c4asset] := by
  refine ⟨?_, ?_, by decide⟩
  · intro agg a h
    simp only [mergeAssetInto, h]
  · intro agg a e h
    simp only [mergeAssetInto, h]

/-- Closed instance of `scanWorkspace_merge_additive` (first part, empty
accumulator). -/
theorem scanWorkspace_merge_additive_witness :
    mergeAssetInto [] c3aesAsset = [] ++ [(c3aesAsset.id, c3aesAsset)] :=
  scanWorkspace_merge_additive.1 [] c3aesAsset rfl

/-! ## C8: cancellation and progress reporting -/

theorem scanWorkspaceGo_split (detect : String → Except Unit (List CryptoAsset))
    (c : Nat → Bool) :
    ∀ (files : List String) (p : Nat) (agg : List (String × CryptoAsset)) (prog : List Nat),
      ∃ K, K ≤ files.length ∧
        scanWorkspaceGo detect c files p agg prog
          = ((files.take K).foldl (mergeFile detect) agg, prog ++ List.range' (p + 1) K) ∧
        (∀ k, k < K → c (p + k) = false) ∧
        (K < files.length → c (p + K) = true) := by
  intro files
  induction files with
  | nil =>
    intro p agg prog
    exact ⟨0, le_refl _, by simp [scanWorkspaceGo, List.range'],
      fun k hk => absurd hk (Nat.not_lt_zero k), fun h => absurd h (by simp)⟩
  | cons uri rest ih =>
    intro p agg prog
    by_cases hc : c p
    · refine ⟨0, by omega, ?_, fun k hk => absurd hk (Nat.not_lt_zero k), fun _ => by simpa using hc⟩
      rw [scanWorkspaceGo, if_pos hc]
      simp [List.range']
    · rw [Bool.not_eq_true] at hc
      obtain ⟨K, hK, heq, hfalse, htrue⟩ := ih (p + 1) (mergeFile detect agg uri) (prog ++ [p + 1])
      refine ⟨K + 1, by simp only [List.length_cons]; omega, ?_, ?_, ?_⟩
      · rw [scanWorkspaceGo, if_neg (by simp [hc]), heq, List.take_succ_cons,
          List.foldl_cons, List.range'_succ, List.append_assoc]
        rfl
      · intro k hk
        cases k with
        | zero => simpa using hc
        | succ k =>
          have harg : p + (k + 1) = (p + 1) + k := by omega
          rw [harg]
          exact hfalse k (by omega)
      · intro h
        have harg : p + (K + 1) = (p + 1) + K := by omega
        rw [harg]
        exact htrue (by simp only [List.length_cons] at h; omega)

/-- C8: `scanWorkspace` checks cancellation before each file; once the token
reports true no further file's detection starts and the accumulated partial
results of exactly the already-processed files are returned; the progress
callback fires after every processed file (error or not) with the values
1, 2, …, K in order, increasing by one each time, and the last reported
value K never exceeds the number of files. -/
theorem scanWorkspace_cancellation_progress
    (detect : String → Except Unit (List CryptoAsset)) (c : Nat → Bool)
    (files : List String) :
    ∃ K, K ≤ files.length ∧
      scanWorkspace detect c files
        = (recordValues ((files.take K).foldl (mergeFile detect) []), List.range' 1 K) ∧
      (∀ k, k < K → c k = false) ∧
      (K < files.length → c K = true) ∧
      (∀ x ∈ (scanWorkspace detect c files).2, 1 ≤ x ∧ x ≤ files.length) := by
  obtain ⟨K, hK, heq, hfalse, htrue⟩ := scanWorkspaceGo_split detect c files 0 [] []
  have hmain : scanWorkspace detect c files
      = (recordValues ((files.take K).foldl (mergeFile detect) []), List.range' 1 K) := by
    rw [scanWorkspace, heq]
    simp
  refine ⟨K, hK, hmain, by simpa using hfalse, by simpa using htrue, ?_⟩
  intro x hx
  rw [hmain] at hx
  simp only at hx
  have := List.mem_range'_1.mp hx
  omega

/-- Closed instance of `scanWorkspace_cancellation_progress`: the token that
signals after one processed file, over a two-file set. -/
theorem scanWorkspace_cancellation_progress_witness :
    ∃ K, K ≤ (["a.py", "b.py"] : List String).length ∧
      scanWorkspace aesDetect (fun k => decide (1 ≤ k)) ["a.py", "b.py"]
        = (recordValues (((["a.py", "b.py"] : List String).take K).foldl
            (mergeFile aesDetect) []), List.range' 1 K) ∧
      (∀ k, k < K → (fun k => decide (1 ≤ k)) k = false) ∧
      (K < (["a.py", "b.py"] : List String).length → (fun k => decide (1 ≤ k)) K = true) ∧
      (∀ x ∈ (scanWorkspace aesDetect (fun k => decide (1 ≤ k)) ["a.py", "b.py"]).2,
        1 ≤ x ∧ x ≤ (["a.py", "b.py"] : List String).length) :=
  scanWorkspace_cancellation_progress aesDetect (fun k => decide (1 ≤ k)) ["a.py", "b.py"]

/-! ## Line-based lexical detector (src/parser/regex-detector.ts,
`RegexDetector.scan`, lines 312-378; this is the lexical detector the
Detector Orchestrator invokes).  Its rules come from `crypto-rules.json`;
the class builds, per pattern, the regex `\b<escaped pattern>\b` with flags
`gi` over a correctly escaped literal, modelled by the case-insensitive
word-bounded literal matcher `containsWordCI`. -/

/-- The `DetectionRule` of the class constructor (fields used by `scan`). -/
structure DetectionRule where
  name : String
  primitive : Option String := none
  type : Option String := none
  quantumSafe : Option QSafe := none
  patterns : List String := []
  description : Option String := none
  api : Option String := none

/-- JS `content.split("\n")` (a trailing newline yields a final empty
line). -/
def splitLines : List Char → List (List Char)
  | [] => [[]]
  | c :: rest =>
    if c = '\n' then [] :: splitLines rest
    else
      match splitLines rest with
      | l :: ls => (c :: l) :: ls
      | [] => [[c]]

/-- Model of `line.match(regex) !== null` for the word-bounded case-insensitive
literal regex of `pat`. -/
def containsWordCI (pat line : List Char) : Bool :=
  (List.range (line.length + 1)).any (fun i => (wordMatchAt pat line i).isSome)

/-- JS `String.prototype.trim`. -/
def trimWs (l : List Char) : List Char :=
  ((l.dropWhile Char.isWhitespace).reverse.dropWhile Char.isWhitespace).reverse

/-- The `seenDetections` set and the result list of `scan`. -/
structure ScanAcc where
  seen : List String
  results : List CryptoAsset

/-- The dedup key `${rule.name}-${filename}-${lineNumber}` of line 337. -/
def detKey (rname filename : String) (ln : Nat) : String :=
  rname ++ "-" ++ filename ++ "-" ++ toString ln

/-- The asset pushed at lines 349-371. -/
def v2AssetAt (r : DetectionRule) (filename : String) (lineNumber : Nat)
    (line : List Char) : CryptoAsset :=
  let risk := assignRisk (r.quantumSafe.getD QSafe.unk)
    (r.type.getD (r.primitive.getD "unknown")) r.name
  { name := r.name
    type := r.type.getD (r.primitive.getD "unknown")
    primitive := r.primitive.getD (r.type.getD "unknown")
    assetType := "algorithm"
    description := r.description.getD ""
    quantumSafe := r.quantumSafe.getD QSafe.unk
    severity := risk.severity
    score := risk.score
    riskScore := risk.score
    reason := risk.explanation
    source := filename
    line := lineNumber
    occurrences := 1
    id := "regex:" ++ (if r.name = "" then "unknown" else lowerStr r.name)
      ++ "-" ++ toString lineNumber
    detectionContexts := [{ filePath := filename
                            lineNumbers := [lineNumber]
                            snippet := String.mk (trimWs line) }] }

/-- The `lines.forEach` body (lines 330-373) for one pattern of one rule. -/
def v2ScanLineStep (filename : String) (r : DetectionRule) (pat : List Char)
    (acc : ScanAcc) (il : Nat × List Char) : ScanAcc :=
  if containsWordCI pat il.2 then
    let lineNumber := il.1 + 1
    let key := detKey r.name filename lineNumber
    if acc.seen.contains key then acc
    else { seen := acc.seen ++ [key]
           results := acc.results ++ [v2AssetAt r filename lineNumber il.2] }
  else acc

/-- Embedding of `RegexDetector.scan` (lines 312-378). -/
def regexScanV2 (rules : List DetectionRule) (content : List Char) (filename : String) :
    List CryptoAsset :=
  let lines := splitLines content
  (rules.foldl (fun (acc : ScanAcc) (r : DetectionRule) =>
      let pats := if r.patterns.isEmpty then [r.name] else r.patterns
      pats.foldl (fun (acc : ScanAcc) (p : String) =>
        (lines.enum).foldl (v2ScanLineStep filename r p.data) acc) acc)
    { seen := [], results := [] }).results

/-! ## Syntax-tree detector (src/parser/multilang-detector.ts,
`detectMultiLang`, lines 29-233).  The external tree-sitter parser is
modelled by the availability flag, the parse outcome, and the depth-first
preorder list of node spans the source's recursive `walk` visits.  The
pattern tests `\b<escapeRegExp(x)>\b` are modelled by the word-bounded
literal matcher over the escaped string (exact for patterns without regex
metacharacters, which the concrete rules below use). -/

/-- A rule of `crypto-rules.json` as read by the syntax-tree detector. -/
structure MLRule where
  name : Option String := none
  api : Option String := none
  type : Option String := none
  primitive : Option String := none
  quantumSafe : Option QSafe := none
  description : Option String := none

/-- The metacharacter class `[.*+?^${}()|[\]\\]` of line 26. -/
def isRegexSpecial (c : Char) : Bool :=
  c = '.' || c = '*' || c = '+' || c = '?' || c = '^' || c = '$' || c = '\x7b' ||
  c = '\x7d' || c = '(' || c = ')' || c = '|' || c = '[' || c = ']' || c = '\\'

/-- The buggy `escapeRegExp` of multilang-detector.ts lines 25-27: the
replacement string is `"\\"` with no `$&` back-reference, so every
metacharacter is replaced by a lone backslash (e.g. `crypto.createHash`
becomes `crypto\createHash`). -/
def escapeRegExpV1 (s : List Char) : List Char :=
  (s.map (fun c => if isRegexSpecial c then ['\\'] else [c])).join

/-- Model of `text.substring(0, index).split("\n").length || 1` of lines 123/189. -/
def mlLine (text : List Char) (index : Nat) : Nat :=
  (splitLines (text.take index)).length

/-- The value `rule.name || rule.api || 'unknown'`, the name the ids and the risk
call use (when a rule reaches a detection, name or api is non-empty, so
this also equals `rule.name || rule.api`). -/
def mlIdName (r : MLRule) : String :=
  let n := r.name.getD ""
  let a := r.api.getD ""
  if n ≠ "" then n else if a ≠ "" then a else "unknown"

/-- Insertion into `foundIds`/`results` by `addDetection` and by the fallback
loop: drop the detection when its id was already recorded. -/
def mlAdd (st : List String × List CryptoAsset) (id : String) (asset : CryptoAsset) :
    List String × List CryptoAsset :=
  if st.1.contains id then st else (st.1 ++ [id], st.2 ++ [asset])

/-- The asset pushed by `addDetection` (lines 178-233). -/
def mlAssetAst (r : MLRule) (line : Nat) (snippet : List Char) (fsPath : String)
    (isApi : Bool) : CryptoAsset :=
  let risk := assignRisk (r.quantumSafe.getD QSafe.unk)
    (r.type.getD (r.primitive.getD "unknown")) (mlIdName r)
  { name := mlIdName r
    type := r.type.getD (r.primitive.getD "")
    primitive := r.primitive.getD (r.type.getD "")
    assetType := "algorithm"
    description := r.description.getD
      (if isApi then "API call detected" else "Algorithm detected")
    quantumSafe := r.quantumSafe.getD QSafe.unk
    severity := risk.severity
    score := risk.score
    riskScore := risk.score
    reason := risk.explanation
    source := fsPath
    line := line
    occurrences := 1
    id := "ast:" ++ lowerStr (mlIdName r) ++ "-" ++ toString line
    detectionContexts := [{ filePath := fsPath
                            lineNumbers := [line]
                            snippet := String.mk (trimWs (collapseWsGo ' ' (snippet.take 300) false)) }] }

/-- The asset pushed by the raw-text fallback sweep (lines 139-161). -/
def mlAssetFallback (r : MLRule) (line index : Nat) (text : List Char) (fsPath : String) :
    CryptoAsset :=
  let risk := assignRisk (r.quantumSafe.getD QSafe.unk)
    (r.type.getD (r.primitive.getD "unknown")) (mlIdName r)
  { name := mlIdName r
    type := r.type.getD (r.primitive.getD "")
    primitive := r.primitive.getD (r.type.getD "")
    assetType := "algorithm"
    description := r.description.getD ""
    quantumSafe := r.quantumSafe.getD QSafe.unk
    severity := risk.severity
    score := risk.score
    riskScore := risk.score
    reason := risk.explanation
    source := fsPath
    line := line
    occurrences := 1
    id := "text:" ++ lowerStr (mlIdName r) ++ "-" ++ toString line
    detectionContexts := [{ filePath := fsPath
                            lineNumbers := [line]
                            snippet := String.mk ((text.drop index).take 200) }] }

/-- One rule's tests against one node's snippet (the rule loop of the
`walk`, lines 74-93): the API-signature pattern first, then the bare
algorithm-name pattern; the first hit per rule at a node adds a detection
keyed `ast:<name>-<line>`. -/
def mlNodeRuleStep (text : List Char) (fsPath : String) (span : Nat × Nat)
    (st : List String × List CryptoAsset) (r : MLRule) :
    List String × List CryptoAsset :=
  let snippet := (text.drop span.1).take (span.2 - span.1)
  let n := r.name.getD ""
  let a := r.api.getD ""
  if n = "" ∧ a = "" then st
  else
    let line := mlLine text span.1
    let astId := "ast:" ++ lowerStr (mlIdName r) ++ "-" ++ toString line
    if a ≠ "" ∧ containsWordCI (escapeRegExpV1 a.data) snippet then
      mlAdd st astId (mlAssetAst r line snippet fsPath true)
    else if n ≠ "" ∧ containsWordCI (escapeRegExpV1 n.data) snippet then
      mlAdd st astId (mlAssetAst r line snippet fsPath false)
    else st

/-- All rules against one node. -/
def mlNodeStep (langRules : List MLRule) (text : List Char) (fsPath : String)
    (st : List String × List CryptoAsset) (span : Nat × Nat) :
    List String × List CryptoAsset :=
  langRules.foldl (mlNodeRuleStep text fsPath span) st

/-- The raw-text fallback sweep for one rule (lines 114-164): run
`\b<escaped searchTerm>\b` with flags `gi` over the whole text and add a
detection keyed `text:<name>-<line>` for every match whose key is new. -/
def mlFallbackRuleStep (text : List Char) (fsPath : String)
    (st : List String × List CryptoAsset) (r : MLRule) :
    List String × List CryptoAsset :=
  let n := r.name.getD ""
  let a := r.api.getD ""
  if n = "" ∧ a = "" then st
  else
    let searchTerm := if a ≠ "" then a else n
    let pat := escapeRegExpV1 searchTerm.data
    let offsets := execOffsets (fun i => wordMatchAt pat text i) text.length
    offsets.foldl (fun st index =>
      let line := mlLine text index
      let id := "text:" ++ lowerStr (mlIdName r) ++ "-" ++ toString line
      mlAdd st id (mlAssetFallback r line index text fsPath)) st

/-- Embedding of `detectMultiLang` (multilang-detector.ts lines 29-173):
no parser for the extension, an empty language rule list, or a parse
failure each yield the empty finding list; otherwise the tree walk runs
over the preorder node spans and the regex fallback sweeps the raw text. -/
def detectMultiLang (parserAvailable : Bool) (langRules : List MLRule)
    (parseNodes : Option (List (Nat × Nat))) (text : List Char) (fsPath : String) :
    List CryptoAsset :=
  if !parserAvailable then []
  else if langRules.isEmpty then []
  else
    match parseNodes with
    | none => []
    | some nodes =>
      let st := nodes.foldl (mlNodeStep langRules text fsPath) ([], [])
      (langRules.foldl (mlFallbackRuleStep text fsPath) st).2

/-! ## Detector orchestrator (src/parser/detector-orchestrator.ts,
`DetectorOrchestrator.scanFile`, lines 16-26): run the line-based lexical
detector, then the syntax-tree detector (whose rejection is caught as
`[]`), and return `[...regexHits, ...astHits]`. -/

/-- Embedding of `DetectorOrchestrator.scanFile` (`path.resolve` is the
identity on the absolute paths used here; `.catch(() => [])` is the
identity on the total model of `detectMultiLang`). -/
def scanFile (rules : List DetectionRule) (parserAvailable : Bool)
    (langRules : List MLRule) (parseNodes : Option (List (Nat × Nat)))
    (content : List Char) (filename : String) : List CryptoAsset :=
  regexScanV2 rules content filename
    ++ detectMultiLang parserAvailable langRules parseNodes content filename

/-- C10: for every file content and rule configuration, the orchestrator's
`scanFile` returns exactly the lexical detector's findings followed by the
syntax-tree detector's findings, in that order, with nothing removed,
reordered, or combined: the output is the concatenation, its length is the
sum of the two lengths, its prefix is the lexical result and its suffix the
syntax-tree result (so every lexical finding precedes every syntax-tree
finding). -/
theorem scanFile_returns_concat (rules : List DetectionRule) (pa : Bool)
    (lr : List MLRule) (pn : Option (List (Nat × Nat))) (content : List Char)
    (filename : String) :
    scanFile rules pa lr pn content filename
      = regexScanV2 rules content filename
        ++ detectMultiLang pa lr pn content filename
    ∧ (scanFile rules pa lr pn content filename).length
      = (regexScanV2 rules content filename).length
        + (detectMultiLang pa lr pn content filename).length
    ∧ (scanFile rules pa lr pn content filename).take
        (regexScanV2 rules content filename).length
      = regexScanV2 rules content filename
    ∧ (scanFile rules pa lr pn content filename).drop
        (regexScanV2 rules content filename).length
      = detectMultiLang pa lr pn content filename := by
  refine ⟨rfl, ?_, ?_, ?_⟩ <;>
    simp [scanFile, List.take_left, List.drop_left]

/-- C7: whenever no parser is available for the file's extension, or the
applicable language rule list is empty, or parsing the source fails, the
syntax-tree detector returns the empty finding list (a value, not an
error), and the orchestrator's `scanFile` still returns exactly the
lexical detector's findings for the file; the syntax-tree side never
aborts the scan. -/
theorem syntaxTree_graceful_degradation (rules : List DetectionRule)
    (content : List Char) (filename : String) :
    (∀ (lr : List MLRule) (pn : Option (List (Nat × Nat))),
      detectMultiLang false lr pn content filename = []
      ∧ scanFile rules false lr pn content filename
          = regexScanV2 rules content filename)
    ∧ (∀ (pa : Bool) (pn : Option (List (Nat × Nat))),
      detectMultiLang pa [] pn content filename = []
      ∧ scanFile rules pa [] pn content filename
          = regexScanV2 rules content filename)
    ∧ (∀ (pa : Bool) (lr : List MLRule),
      detectMultiLang pa lr none content filename = []
      ∧ scanFile rules pa lr none content filename
          = regexScanV2 rules content filename) := by
  refine ⟨fun lr pn => ?_, fun pa pn => ?_, fun pa lr => ?_⟩
  · have h : detectMultiLang false lr pn content filename = [] := by
      simp [detectMultiLang]
    exact ⟨h, by simp [scanFile, h]⟩
  · have h : detectMultiLang pa [] pn content filename = [] := by
      cases pa <;> simp [detectMultiLang]
    exact ⟨h, by simp [scanFile, h]⟩
  · have h : detectMultiLang pa lr none content filename = [] := by
      cases pa <;> cases lr <;> simp [detectMultiLang]
    exact ⟨h, by simp [scanFile, h]⟩

/-! ## C2: cross-detector behaviour on `crypto.createHash('sha1')` -/

/-- The SHA1 rule as the line-based lexical detector sees it (patterns
flattened by the class constructor). -/
def c2lexRules : List DetectionRule :=
  [{ name := "SHA1", primitive := some "hash", type := some "hash",
     quantumSafe := some QSafe.no, patterns := ["SHA1"],
     description := some "Deprecated weak hash function" }]

/-- The SHA1 rule as the syntax-tree detector sees it. -/
def c2mlRules : List MLRule :=
  [{ name := some "SHA1", type := some "hash", quantumSafe := some QSafe.no,
     description := some "Deprecated weak hash function" }]

/-- The file content of the scenario. -/
def c2text : List Char := "crypto.createHash('sha1')".data

/-- Preorder node spans of the parsed tree: the root span covering the whole
25-character expression (deeper nodes would only repeat the same hit, which
`foundIds` already deduplicates within the tree walk). -/
def c2nodes : List (Nat × Nat) := [(0, 25)]

/-- The orchestrator's output on the scenario. -/
def c2out : List CryptoAsset :=
  scanFile c2lexRules true c2mlRules (some c2nodes) c2text "/f.js"

/-- C2 fails on the code: on a file containing `crypto.createHash('sha1')`
where both detectors hit SHA1 at line 1, `scanFile`'s output does NOT
contain exactly one SHA1 asset at that line — no merge-key deduplication
exists, and three assets (lexical, tree-walk, fallback sweep) survive. -/
theorem scanFile_dedup_counterexample :
    ¬ ((c2out.filter (fun a => a.name == "SHA1" &&
        a.detectionContexts.any (fun ctx => ctx.filePath == "/f.js" &&
          ctx.lineNumbers.contains 1))).length = 1) := by decide

/-- C2 amended: `scanFile` performs no cross-detector merge; it returns the
lexical findings concatenated with the syntax-tree findings, and on this
file three SHA1 assets survive at line 1 — one lexical (`regex:` id), one
from the tree walk (`ast:` id) and one from the raw-text fallback sweep
(`text:` id); the tree walk and its own fallback are not deduplicated
against each other either, since their ids carry different prefixes. -/
theorem scanFile_concat_amended :
    (c2out.map (fun a => a.id)) = ["regex:sha1-1", "ast:sha1-1", "text:sha1-1"]
    ∧ (c2out.filter (fun a => a.name == "SHA1" &&
        a.detectionContexts.any (fun ctx => ctx.filePath == "/f.js" &&
          ctx.lineNumbers.contains 1))).length = 3
    ∧ (∀ (rules : List DetectionRule) (pa : Bool) (lr : List MLRule)
        (pn : Option (List (Nat × Nat))) (content : List Char) (filename : String),
        scanFile rules pa lr pn content filename
          = regexScanV2 rules content filename
            ++ detectMultiLang pa lr pn content filename) :=
  ⟨by decide, by decide, fun _ _ _ _ _ _ => rfl⟩
